import Mathlib

/-!
Shallow embedding of `src/cpp/main_windows_strict.cpp`, the single source
file of the Script-YT repository (a Windows tray utility that collects
clipboard URLs into a persisted text file and batch-invokes `yt-dlp`).

Modelling choices:
* The persisted list file `DOWNLOAD_LIST` is modelled as `Option (List Char)`:
  `none` is a missing (or unopenable) file, `some content` is its content as
  a sequence of wide characters (the program reads and writes the file
  through `std::wifstream` / `std::wofstream`, so the logical unit is the
  wide character after codecvt translation; the `\r\n` text-mode translation
  is the identity at this level).
* Externally visible actions (process spawns via `ShellExecuteW`, the
  truncation performed by `ClearList`, and user-visible error reports, of
  which the program has none) are recorded in an ordered trace of `Effect`s.
* Clipboard access (`OpenClipboard` / `GetClipboardData` / `GlobalLock`) is
  modelled as `Option (List Char)`: `none` when any of the three calls
  fails, `some text` for the NUL-terminated text read from the handle.
* Whether `std::wofstream(DOWNLOAD_LIST, std::ios::app)` yields an open
  stream is the boolean `canOpen` (the `file.is_open()` check at line 62).
-/

namespace ScriptYT

/-- Externally visible actions of the program, in order.  `spawn exe args`
is a `ShellExecuteW(NULL, L"open", exe, args, ...)` call; `truncate` is the
file truncation performed by `ClearList`; `report msg` is a user-visible
error report (no constructor of the C++ source ever produces one: the code
contains no `MessageBox` or similar call, so `report` exists in the model
only so that their absence can be stated). -/
inductive Effect where
  | spawn (exe args : List Char) : Effect
  | truncate : Effect
  | report (msg : List Char) : Effect
deriving DecidableEq

/-- Recognises process-spawning effects in a trace. -/
def isSpawn : Effect → Bool
  | Effect.spawn _ _ => true
  | _ => false

/-- Recognises user-visible report effects in a trace. -/
def isReport : Effect → Bool
  | Effect.report _ => true
  | _ => false

/-- Helper for line splitting: prepend a character to the first line of an
already-split tail (starting a fresh line when there is none). -/
def consHead (c : Char) : List (List Char) → List (List Char)
  | [] => [[c]]
  | l :: ls => (c :: l) :: ls

/-- Successive results of `std::getline(f, line)` on a stream whose
remaining content is the given character list: `getline` extracts
characters up to (and consuming) the next `\n` or end of file, and fails
exactly when the stream is already exhausted, ending the `while` loop at
line 71 of the source. -/
def readLines : List Char → List (List Char)
  | [] => []
  | c :: cs => if c = '\n' then [] :: readLines cs else consHead c (readLines cs)

/-- Embedding of `ReadList` (lines 66-77): read every `getline` line of the
list file, keeping only non-empty ones (`if (!line.empty())`, line 73).  A
missing or unopenable file puts the `wifstream` in a failed state, so
`getline` fails at once and the result is empty; this is the `none` case. -/
def ReadList (file : Option (List Char)) : List (List Char) :=
  (readLines (file.getD [])).filter (fun l => !l.isEmpty)

/-- Embedding of `ClearList` (lines 79-82): constructing
`std::wofstream(DOWNLOAD_LIST, std::ios::trunc)` truncates the file to
empty content, creating it when missing. -/
def ClearList (file : Option (List Char)) : Option (List Char) :=
  some []

/-- Embedding of `AddLinkFromClipboard` (lines 38-64).  The early returns at
lines 40-53 (clipboard cannot be opened, no `CF_UNICODETEXT` data, lock
failure) collapse to `clip = none`; line 58 returns on empty text; lines
61-63 open the list file in append mode (which creates a missing file) and,
when the stream is open, append the text followed by `L"\n"`.  Every branch
returns without producing any externally visible effect. -/
def AddLinkFromClipboard (clip : Option (List Char)) (canOpen : Bool)
    (file : Option (List Char)) : Option (List Char) × List Effect :=
  match clip with
  | none => (file, [])
  | some text =>
    if text = [] then (file, [])
    else if canOpen then (some (file.getD [] ++ text ++ ['\n']), [])
    else (file, [])

/-- Embedding of `RunDownload` (lines 84-88): build the command
`L"yt-dlp " + url` and spawn `cmd.exe` with arguments `L"/c " + cmd`. -/
def RunDownload (url : List Char) : Effect :=
  Effect.spawn ['c', 'm', 'd', '.', 'e', 'x', 'e']
    (['/', 'c', ' '] ++ (['y', 't', '-', 'd', 'l', 'p', ' '] ++ url))

/-- The `for (const auto &u : urls) RunDownload(u);` loop of lines 93-94,
spawning one downloader process per URL, in list order. -/
def runAll : List (List Char) → List Effect
  | [] => []
  | u :: us => RunDownload u :: runAll us

/-- Embedding of `DownloadAll` (lines 90-96): read the stored URLs, spawn
the downloader on each in order, then clear the list.  The trace records
the spawns followed by the truncation, in execution order. -/
def DownloadAll (file : Option (List Char)) : Option (List Char) × List Effect :=
  (ClearList file, runAll (ReadList file) ++ [Effect.truncate])

/-- Hotkey identifiers `HOTKEY_ADD` and `HOTKEY_DOWNLOAD` (lines 22-23). -/
def HOTKEY_ADD : Nat := 1

/-- Hotkey identifier of the download hotkey (line 23). -/
def HOTKEY_DOWNLOAD : Nat := 2

/-- The `WM_HOTKEY` dispatch of `WndProc` (lines 165-170): the add hotkey
runs `AddLinkFromClipboard`, the download hotkey runs `DownloadAll`, any
other hotkey id does nothing. -/
def onHotkey (wParam : Nat) (clip : Option (List Char)) (canOpen : Bool)
    (file : Option (List Char)) : Option (List Char) × List Effect :=
  if wParam = HOTKEY_ADD then AddLinkFromClipboard clip canOpen file
  else if wParam = HOTKEY_DOWNLOAD then DownloadAll file
  else (file, [])

/-- A character list is newline-terminated when it is empty or its last
character is `\n`.  Every content the program itself writes has this shape:
`AddLinkFromClipboard` appends a trailing `L"\n"` and `ClearList` leaves
the empty content. -/
def terminated (xs : List Char) : Prop :=
  xs = [] ∨ xs.getLast? = some '\n'

instance (xs : List Char) : Decidable (terminated xs) := by
  unfold terminated; infer_instance

/-- Byte stream produced for a character sequence by `std::wofstream` under
the default global locale: the classic codecvt facet narrows each wide
character to a single byte.  The model commits only to the ASCII range
(code points below 128, one byte each, equal to the code point); wider
characters are implementation-defined and modelled as an encoding failure. -/
def narrowEncode : List Char → Option (List Nat)
  | [] => some []
  | c :: cs =>
    if c.toNat < 128 then (narrowEncode cs).map (fun bs => c.toNat :: bs)
    else none

/-- Modelled from the spec: UTF-16 little-endian encoding ("File:
plain-text URL list, one URL per line, UTF-16 encoded"), two bytes per
code unit, stated for characters of the basic multilingual plane. -/
def utf16leEncode : List Char → List Nat
  | [] => []
  | c :: cs => (c.toNat % 256) :: (c.toNat / 256 % 256) :: utf16leEncode cs

/-- Modelled from the spec: UTF-16 big-endian encoding, the byte-order
alternative to [utf16leEncode]. -/
def utf16beEncode : List Char → List Nat
  | [] => []
  | c :: cs => (c.toNat / 256 % 256) :: (c.toNat % 256) :: utf16beEncode cs

/-- File content holding one URL per line: each URL followed by a newline. -/
def joinContent (urls : List (List Char)) : List Char :=
  (urls.map (fun u => u ++ ['\n'])).flatten

/-! Helper lemmas about line splitting and the encodings. -/

theorem consHead_ne_nil (c : Char) (ls : List (List Char)) : consHead c ls ≠ [] := by
  cases ls <;> simp [consHead]

theorem readLines_ne_nil (c : Char) (cs : List Char) : readLines (c :: cs) ≠ [] := by
  unfold readLines
  split
  · simp
  · exact consHead_ne_nil _ _

theorem readLines_cons_nl (cs : List Char) : readLines ('\n' :: cs) = [] :: readLines cs := by
  simp [readLines]

theorem readLines_cons_other (c : Char) (cs : List Char) (hc : c ≠ '\n') :
    readLines (c :: cs) = consHead c (readLines cs) := by
  simp [readLines, hc]

theorem readLines_append_of_terminated (xs ys : List Char) (h : terminated xs) :
    readLines (xs ++ ys) = readLines xs ++ readLines ys := by
  induction xs with
  | nil => simp [readLines]
  | cons c cs ih =>
    rcases h with h | h
    · exact absurd h (by simp)
    cases cs with
    | nil =>
      simp only [List.getLast?_singleton, Option.some.injEq] at h
      subst h
      simp [readLines]
    | cons d ds =>
      rw [List.getLast?_cons_cons] at h
      have hterm : terminated (d :: ds) := Or.inr h
      have ih2 := ih hterm
      by_cases hc : c = '\n'
      · subst hc
        rw [List.cons_append, readLines_cons_nl, readLines_cons_nl, ih2, List.cons_append]
      · obtain ⟨l, ls, hl⟩ : ∃ l ls, readLines (d :: ds) = l :: ls := by
          rcases hshape : readLines (d :: ds) with _ | ⟨l, ls⟩
          · exact absurd hshape (readLines_ne_nil _ _)
          · exact ⟨l, ls, rfl⟩
        rw [List.cons_append, readLines_cons_other _ _ hc, readLines_cons_other _ _ hc,
          ih2, hl]
        simp [consHead]

theorem readLines_append_nl (xs ys : List Char) (h : '\n' ∉ xs) :
    readLines (xs ++ '\n' :: ys) = xs :: readLines ys := by
  induction xs with
  | nil => simp [readLines]
  | cons c cs ih =>
    have hc : c ≠ '\n' := fun hc => h (hc ▸ List.mem_cons_self c cs)
    have hcs : '\n' ∉ cs := fun hm => h (List.mem_cons_of_mem c hm)
    rw [List.cons_append, readLines_cons_other _ _ hc, ih hcs]
    simp [consHead]

theorem ReadList_append (xs ys : List Char) (h : terminated xs) :
    ReadList (some (xs ++ ys)) = ReadList (some xs) ++ ReadList (some ys) := by
  simp [ReadList, readLines_append_of_terminated xs ys h, List.filter_append]

theorem ReadList_single_line (text : List Char) (hne : text ≠ []) (hnl : '\n' ∉ text) :
    ReadList (some (text ++ ['\n'])) = [text] := by
  have h := readLines_append_nl text [] hnl
  cases text with
  | nil => exact absurd rfl hne
  | cons a as =>
    simp only [ReadList, Option.getD_some]
    rw [h]
    simp [readLines, List.filter_cons, List.isEmpty_cons]

theorem terminated_append_nl (xs : List Char) : terminated (xs ++ ['\n']) :=
  Or.inr (List.getLast?_concat xs)

theorem runAll_eq_map (us : List (List Char)) : runAll us = us.map RunDownload := by
  induction us with
  | nil => rfl
  | cons u us ih => simp [runAll, ih]

theorem narrowEncode_ascii (xs : List Char) (h : ∀ c ∈ xs, c.toNat < 128) :
    narrowEncode xs = some (xs.map Char.toNat) := by
  induction xs with
  | nil => rfl
  | cons c cs ih =>
    have hc : c.toNat < 128 := h c (List.mem_cons_self c cs)
    have hcs : ∀ x ∈ cs, x.toNat < 128 := fun x hx => h x (List.mem_cons_of_mem c hx)
    simp [narrowEncode, hc, ih hcs]

theorem utf16leEncode_length (xs : List Char) :
    (utf16leEncode xs).length = 2 * xs.length := by
  induction xs with
  | nil => rfl
  | cons c cs ih => simp [utf16leEncode, ih]; ring

theorem ReadList_joinContent (urls : List (List Char))
    (h : ∀ u ∈ urls, u ≠ [] ∧ '\n' ∉ u) :
    ReadList (some (joinContent urls)) = urls := by
  induction urls with
  | nil => rfl
  | cons u us ih =>
    have hu := h u (List.mem_cons_self u us)
    have hus : ∀ x ∈ us, x ≠ [] ∧ '\n' ∉ x := fun x hx => h x (List.mem_cons_of_mem u hx)
    have hjoin : joinContent (u :: us) = (u ++ ['\n']) ++ joinContent us := by
      simp [joinContent]
    rw [hjoin, ReadList_append _ _ (terminated_append_nl u),
      ReadList_single_line u hu.1 hu.2, ih hus]
    rfl

/-! Claim theorems. -/

/-- C1: For every content of the stored list file, `DownloadAll` spawns the
external downloader (`cmd.exe /c yt-dlp <url>`) exactly once per stored URL,
in the order the URLs appear in the file, and every spawn precedes the
clearing truncation, which is the final event of the trace. -/
theorem c1_downloadAll_spawns_each_url_in_order_before_clear
    (file : Option (List Char)) :
    DownloadAll file
      = (some [], (ReadList file).map RunDownload ++ [Effect.truncate]) := by
  simp [DownloadAll, ClearList, runAll_eq_map]

/-- C2: after `DownloadAll` completes, the persisted list file is cleared:
`ReadList` on the resulting file state returns the empty list, for every
prior file content. -/
theorem c2_readList_after_downloadAll_empty (file : Option (List Char)) :
    ReadList (DownloadAll file).1 = [] := rfl

/-- C3: when the add hotkey fires with a non-empty clipboard text, the
operation appends exactly that text followed by one newline at the end of
the persisted list file; when the text contains no newline and the prior
content is newline-terminated (as every program-written content is), the
stored line list gains exactly the clipboard text as one final entry. -/
theorem c3_add_appends_text_as_line (old text : List Char) (h : text ≠ []) :
    onHotkey HOTKEY_ADD (some text) true (some old)
        = (some (old ++ text ++ ['\n']), [])
    ∧ ('\n' ∉ text → terminated old →
        ReadList (some (old ++ text ++ ['\n'])) = ReadList (some old) ++ [text]) := by
  constructor
  · simp [onHotkey, HOTKEY_ADD, AddLinkFromClipboard, h]
  · intro hnl hterm
    rw [List.append_assoc, ReadList_append old _ hterm, ReadList_single_line text h hnl]

/-- Witness for C3 at the concrete prior content `u\n` and clipboard text
`vw`. -/
theorem c3_witness :
    onHotkey HOTKEY_ADD (some ['v', 'w']) true (some ['u', '\n'])
        = (some ['u', '\n', 'v', 'w', '\n'], [])
    ∧ ReadList (some ['u', '\n', 'v', 'w', '\n']) = [['u'], ['v', 'w']] := by
  have h := c3_add_appends_text_as_line ['u', '\n'] ['v', 'w'] (by decide)
  constructor
  · rw [h.1]; decide
  · have h2 := h.2 (by decide) (by decide)
    have hl : (['u', '\n'] ++ ['v', 'w'] ++ ['\n'] : List Char)
        = ['u', '\n', 'v', 'w', '\n'] := by decide
    rw [hl] at h2
    rw [h2]
    decide

/-- C4: when the clipboard is unavailable or empty, or the list file stream
cannot be opened, `AddLinkFromClipboard` returns with the persisted file
unchanged and an empty effect trace, so no user-visible error report is
produced. -/
theorem c4_add_silent_on_failure (clip : Option (List Char)) (canOpen : Bool)
    (file : Option (List Char))
    (h : clip = none ∨ clip = some [] ∨ canOpen = false) :
    AddLinkFromClipboard clip canOpen file = (file, []) := by
  rcases h with h | h | h
  · subst h; rfl
  · subst h; rfl
  · subst h
    cases clip with
    | none => rfl
    | some text =>
      by_cases ht : text = [] <;> simp [AddLinkFromClipboard, ht]

/-- Witness for C4 at an unavailable clipboard and concrete file content. -/
theorem c4_witness :
    AddLinkFromClipboard none true (some ['u', '\n']) = (some ['u', '\n'], []) :=
  c4_add_silent_on_failure none true (some ['u', '\n']) (Or.inl rfl)

/-- C5: the list performs no deduplication: adding a URL already present in
the stored list appends a second copy at the end, so the stored list ends
ordered by insertion and counts the URL twice or more. -/
theorem c5_no_dedup (old text : List Char) (h1 : terminated old)
    (h2 : text ≠ []) (h3 : '\n' ∉ text)
    (h4 : text ∈ ReadList (some old)) :
    ReadList (AddLinkFromClipboard (some text) true (some old)).1
        = ReadList (some old) ++ [text]
    ∧ (ReadList (AddLinkFromClipboard (some text) true (some old)).1).count text
        = (ReadList (some old)).count text + 1
    ∧ 2 ≤ (ReadList (AddLinkFromClipboard (some text) true (some old)).1).count text := by
  have hfile : (AddLinkFromClipboard (some text) true (some old)).1
      = some (old ++ text ++ ['\n']) := by
    simp [AddLinkFromClipboard, h2]
  have hread : ReadList (some (old ++ text ++ ['\n']))
      = ReadList (some old) ++ [text] := by
    rw [List.append_assoc, ReadList_append old _ h1, ReadList_single_line text h2 h3]
  have hcount : 0 < (ReadList (some old)).count text := List.count_pos_iff.mpr h4
  have hone : ([text] : List (List Char)).count text = 1 := by simp
  refine ⟨by rw [hfile, hread], ?_, ?_⟩
  · rw [hfile, hread, List.count_append, hone]
  · rw [hfile, hread, List.count_append, hone]
    omega

/-- Witness for C5: the list `a\n` already stores `a`; adding `a` again
stores it twice. -/
theorem c5_witness :
    ['a'] ∈ ReadList (some ['a', '\n'])
    ∧ (ReadList (AddLinkFromClipboard (some ['a']) true (some ['a', '\n'])).1).count ['a'] = 2 := by
  have h := c5_no_dedup ['a', '\n'] ['a'] (by decide) (by decide) (by decide) (by decide)
  refine ⟨by decide, ?_⟩
  rw [h.2.1]
  decide

/-- C6 counterexample: the byte stream the program writes for the
two-character content `a\n` is the two single bytes `[97, 10]`, which is
neither the UTF-16LE nor the UTF-16BE encoding of that content (each
occupies four bytes), so the persisted file is not UTF-16 encoded. -/
theorem c6_counterexample :
    narrowEncode ['a', '\n'] = some [97, 10]
    ∧ utf16leEncode ['a', '\n'] = [97, 0, 10, 0]
    ∧ utf16beEncode ['a', '\n'] = [0, 97, 0, 10]
    ∧ narrowEncode ['a', '\n'] ≠ some (utf16leEncode ['a', '\n'])
    ∧ narrowEncode ['a', '\n'] ≠ some (utf16beEncode ['a', '\n']) := by
  decide

/-- C6 amended: the persisted list file holds one URL per line and is
written in the single-byte narrow encoding of `std::wofstream` under the
default locale (one byte per ASCII character), which differs from the
UTF-16 encoding of the same content. -/
theorem c6_amended_narrow_one_url_per_line (urls : List (List Char))
    (h1 : ∀ u ∈ urls, u ≠ [] ∧ '\n' ∉ u ∧ ∀ c ∈ u, c.toNat < 128)
    (h2 : urls ≠ []) :
    ReadList (some (joinContent urls)) = urls
    ∧ narrowEncode (joinContent urls) = some ((joinContent urls).map Char.toNat)
    ∧ (joinContent urls).map Char.toNat ≠ utf16leEncode (joinContent urls) := by
  have hro : ∀ u ∈ urls, u ≠ [] ∧ '\n' ∉ u := fun u hu => ⟨(h1 u hu).1, (h1 u hu).2.1⟩
  have hascii : ∀ c ∈ joinContent urls, c.toNat < 128 := by
    intro c hc
    simp only [joinContent, List.mem_flatten, List.mem_map] at hc
    obtain ⟨l, ⟨u, hu, rfl⟩, hcl⟩ := hc
    rcases List.mem_append.mp hcl with hcu | hcn
    · exact (h1 u hu).2.2 c hcu
    · have hc10 : c = '\n' := by simpa using hcn
      subst hc10; decide
  refine ⟨ReadList_joinContent urls hro, narrowEncode_ascii _ hascii, ?_⟩
  intro heq
  have hlen := congrArg List.length heq
  rw [List.length_map, utf16leEncode_length] at hlen
  have hpos : 0 < (joinContent urls).length := by
    cases urls with
    | nil => exact absurd rfl h2
    | cons u us =>
      have hj : joinContent (u :: us) = (u ++ ['\n']) ++ joinContent us := by
        simp [joinContent]
      rw [hj]
      simp [List.length_append]
  omega

/-- Witness for the amended C6 at the single stored URL `a`. -/
theorem c6_amended_witness :
    ReadList (some (joinContent [['a']])) = [['a']]
    ∧ narrowEncode (joinContent [['a']])
        = some ((joinContent [['a']]).map Char.toNat)
    ∧ (joinContent [['a']]).map Char.toNat ≠ utf16leEncode (joinContent [['a']]) :=
  c6_amended_narrow_one_url_per_line [['a']] (by decide) (by decide)

/-- C7: on a missing (or unopenable) list file, `ReadList` returns the
empty list and `DownloadAll` spawns the downloader zero times and emits no
user-visible report: its whole trace is the single clearing truncation. -/
theorem c7_missing_file_zero_spawns :
    ReadList none = []
    ∧ DownloadAll none = (some [], [Effect.truncate])
    ∧ (DownloadAll none).2.filter isSpawn = []
    ∧ (DownloadAll none).2.filter isReport = [] := by
  refine ⟨rfl, rfl, rfl, rfl⟩

/-- C8: no element of the list returned by `ReadList` is the empty string:
blank lines of the file are skipped and never become entries. -/
theorem c8_no_empty_entries (file : Option (List Char)) (u : List Char)
    (h : u ∈ ReadList file) : u ≠ [] := by
  intro hn
  subst hn
  unfold ReadList at h
  have hp := (List.mem_filter.mp h).2
  simp at hp

/-- Witness for C8 at the concrete file content `a\n`. -/
theorem c8_witness :
    ['a'] ∈ ReadList (some ['a', '\n']) ∧ ['a'] ≠ ([] : List Char) :=
  ⟨by decide, c8_no_empty_entries (some ['a', '\n']) ['a'] (by decide)⟩

/-- C9 counterexample: on a prior file content lacking a trailing newline
(here `abc`, producible by hand-editing the file the program opens for the
user), appending `x` merges with the last stored line: the previously
stored line `abc` is no longer present after the call. -/
theorem c9_counterexample :
    ['a', 'b', 'c'] ∈ ReadList (some ['a', 'b', 'c'])
    ∧ AddLinkFromClipboard (some ['x']) true (some ['a', 'b', 'c'])
        = (some ['a', 'b', 'c', 'x', '\n'], [])
    ∧ ['a', 'b', 'c'] ∉ ReadList (some ['a', 'b', 'c', 'x', '\n']) := by
  decide

/-- C9 amended: provided the prior file content is empty or
newline-terminated — which holds for every content the program itself
writes — the add operation is append-only: the prior stored line list is a
prefix of the new one, so every prior line is still present, unchanged and
in the same relative order. -/
theorem c9_amended_append_only (clip : Option (List Char)) (canOpen : Bool)
    (old : List Char) (h : terminated old) :
    ReadList (some old)
      <+: ReadList (AddLinkFromClipboard clip canOpen (some old)).1 := by
  cases clip with
  | none => exact List.prefix_rfl
  | some text =>
    by_cases ht : text = []
    · subst ht
      exact List.prefix_rfl
    · cases canOpen with
      | false =>
        have hfile : (AddLinkFromClipboard (some text) false (some old)).1 = some old := by
          simp [AddLinkFromClipboard, ht]
        rw [hfile]
      | true =>
        have hfile : (AddLinkFromClipboard (some text) true (some old)).1
            = some (old ++ text ++ ['\n']) := by
          simp [AddLinkFromClipboard, ht]
        rw [hfile, List.append_assoc, ReadList_append old _ h]
        exact List.prefix_append _ _

/-- Witness for the amended C9 at prior content `u\n` and clipboard `v`. -/
theorem c9_witness :
    ReadList (some ['u', '\n'])
      <+: ReadList (AddLinkFromClipboard (some ['v']) true (some ['u', '\n'])).1 :=
  c9_amended_append_only (some ['v']) true ['u', '\n'] (by decide)

/-- C10: for the clipboard text `a\nb`, which contains an embedded newline,
adding it and reading the list back yields two entries (`a` and `b`), one
per non-empty segment, and no single entry holding the whole text. -/
theorem c10_embedded_newline_multiple_entries :
    '\n' ∈ ['a', '\n', 'b']
    ∧ AddLinkFromClipboard (some ['a', '\n', 'b']) true (some [])
        = (some ['a', '\n', 'b', '\n'], [])
    ∧ ReadList (some ['a', '\n', 'b', '\n']) = [['a'], ['b']]
    ∧ 1 < (ReadList (some ['a', '\n', 'b', '\n'])).length
    ∧ ['a', '\n', 'b'] ∉ ReadList (some ['a', '\n', 'b', '\n']) := by
  decide

end ScriptYT
